import Mathlib

/-!
Verification of the repository scrapper (scrapper/main.py): a bounded-concurrency
recursive tree fetcher with a post-fetch SHA-256 manifest pass.

The Python source is shallowly embedded:
  * module constants (PATTERN_TO_FIND, PATTERN_TO_SUB, CLASSES, PATH_TO_RESULT,
    SEMAPHORE_LIMIT) become Lean constants;
  * `hashlib.sha256(...).hexdigest()` is embedded as a full FIPS 180-4 SHA-256
    over byte lists (`sha256hex`), validated below on official test vectors;
  * `calculate_sha256` reads the whole file and hashes it: embedded as a function
    of the file's byte content;
  * `calculate_sha256_for_directory` walks a filesystem tree (os.walk, top-down)
    and writes CSV rows: embedded over an inductive filesystem tree;
  * `save_file` is embedded as a state transformer on a local filesystem map,
    parameterised by the network's response;
  * `fetch_data`'s control flow (semaphore acquisition, listing fetch, per-entry
    sequential loop) is embedded as a sequential event-trace interpreter over a
    remote tree, reflecting that the coroutine awaits every child operation
    in-line (no task spawning appears in the source);
  * the per-element classification in `fetch_data`'s loop is embedded at the
    markup-element level to capture the CSS-class and next-sibling accesses.
-/

/-! ## Module constants (scrapper/main.py lines 45-53) -/

/-- Embeds `PATTERN_TO_FIND = '/src/branch'` (main.py line 45). -/
def PATTERN_TO_FIND : String := "/src/branch"

/-- Embeds `PATTERN_TO_SUB = '/raw/branch'` (main.py line 47). -/
def PATTERN_TO_SUB : String := "/raw/branch"

/-- Embeds `CLASSES = ('octicon-file-directory-fill', 'octicon-file')` (main.py line 49). -/
def CLASSES : List String := ["octicon-file-directory-fill", "octicon-file"]

/-- Embeds `PATH_TO_RESULT = 'repository_sha256'` (main.py line 51). -/
def PATH_TO_RESULT : String := "repository_sha256"

/-- Embeds `SEMAPHORE_LIMIT = 3` (main.py line 53). -/
def SEMAPHORE_LIMIT : Nat := 3

/-! ## SHA-256 (FIPS 180-4), the embedding of `hashlib.sha256(...).hexdigest()`

Bytes are natural numbers below 256; 32-bit words are natural numbers reduced
modulo `M32` at every arithmetic step. -/

/-- Two to the thirty-second power, the modulus of 32-bit word arithmetic. -/
def M32 : Nat := 4294967296

/-- Right-rotation of a 32-bit word by `n` places. -/
def rotr (n x : Nat) : Nat := (x >>> n) ||| ((x <<< (32 - n)) % M32)

/-- The SHA-256 choice function Ch(x,y,z). -/
def ch32 (x y z : Nat) : Nat := (x &&& y) ^^^ ((x ^^^ 4294967295) &&& z)

/-- The SHA-256 majority function Maj(x,y,z). -/
def maj32 (x y z : Nat) : Nat := (x &&& y) ^^^ (x &&& z) ^^^ (y &&& z)

/-- The SHA-256 compression function Sigma0. -/
def bigS0 (x : Nat) : Nat := rotr 2 x ^^^ rotr 13 x ^^^ rotr 22 x

/-- The SHA-256 compression function Sigma1. -/
def bigS1 (x : Nat) : Nat := rotr 6 x ^^^ rotr 11 x ^^^ rotr 25 x

/-- The SHA-256 message-schedule function sigma0. -/
def smallS0 (x : Nat) : Nat := rotr 7 x ^^^ rotr 18 x ^^^ (x >>> 3)

/-- The SHA-256 message-schedule function sigma1. -/
def smallS1 (x : Nat) : Nat := rotr 17 x ^^^ rotr 19 x ^^^ (x >>> 10)

/-- The 64 SHA-256 round constants (FIPS 180-4 Section 4.2.2), in decimal. -/
def K256 : List Nat :=
  [1116352408, 1899447441, 3049323471, 3921009573, 961987163, 1508970993,
   2453635748, 2870763221, 3624381080, 310598401, 607225278, 1426881987,
   1925078388, 2162078206, 2614888103, 3248222580, 3835390401, 4022224774,
   264347078, 604807628, 770255983, 1249150122, 1555081692, 1996064986,
   2554220882, 2821834349, 2952996808, 3210313671, 3336571891, 3584528711,
   113926993, 338241895, 666307205, 773529912, 1294757372, 1396182291,
   1695183700, 1986661051, 2177026350, 2456956037, 2730485921, 2820302411,
   3259730800, 3345764771, 3516065817, 3600352804, 4094571909, 275423344,
   430227734, 506948616, 659060556, 883997877, 958139571, 1322822218,
   1537002063, 1747873779, 1955562222, 2024104815, 2227730452, 2361852424,
   2428436474, 2756734187, 3204031479, 3329325298]

/-- Big-endian byte rendering of `v` on `n` bytes. -/
def toBytesBE : Nat → Nat → List Nat
  | 0, _ => []
  | n+1, v => toBytesBE n (v >>> 8) ++ [v &&& 255]

/-- SHA-256 message padding: append the 0x80 marker, zero bytes up to 56 mod 64,
then the bit length on eight big-endian bytes. -/
def padMessage (m : List Nat) : List Nat :=
  m ++ [128] ++ List.replicate ((119 - (m.length % 64)) % 64) 0 ++ toBytesBE 8 (8 * m.length)

/-- Group a byte list into big-endian 32-bit words (four bytes each). -/
def wordsOfBytes : List Nat → List Nat
  | b0 :: b1 :: b2 :: b3 :: rest =>
      (b0 * 16777216 + b1 * 65536 + b2 * 256 + b3) :: wordsOfBytes rest
  | _ => []

/-- Extend a 16-word block by `n` further schedule words W(t) =
sigma1(W(t-2)) + W(t-7) + sigma0(W(t-15)) + W(t-16) mod 2^32. -/
def extendW : Nat → List Nat → List Nat
  | 0, ws => ws
  | n+1, ws =>
      let t := ws.length
      let w := (smallS1 (ws.getD (t-2) 0) + ws.getD (t-7) 0 +
                smallS0 (ws.getD (t-15) 0) + ws.getD (t-16) 0) % M32
      extendW n (ws ++ [w])

/-- The eight 32-bit working variables of the SHA-256 state. -/
structure Hsh where
  a : Nat
  b : Nat
  c : Nat
  d : Nat
  e : Nat
  f : Nat
  g : Nat
  hh : Nat
deriving DecidableEq, Repr

/-- One SHA-256 compression round. -/
def sha256Round (s : Hsh) (k w : Nat) : Hsh :=
  let t1 := (s.hh + bigS1 s.e + ch32 s.e s.f s.g + k + w) % M32
  let t2 := (bigS0 s.a + maj32 s.a s.b s.c) % M32
  ⟨(t1 + t2) % M32, s.a, s.b, s.c, (s.d + t1) % M32, s.e, s.f, s.g⟩

/-- Fold the 64 rounds over the round constants and the message schedule. -/
def sha256Rounds : List Nat → List Nat → Hsh → Hsh
  | k :: ks, w :: ws, s => sha256Rounds ks ws (sha256Round s k w)
  | _, _, s => s

/-- Compress one 16-word block into the chaining state. -/
def sha256Compress (s : Hsh) (block : List Nat) : Hsh :=
  let t := sha256Rounds K256 (extendW 48 block) s
  ⟨(s.a + t.a) % M32, (s.b + t.b) % M32, (s.c + t.c) % M32, (s.d + t.d) % M32,
   (s.e + t.e) % M32, (s.f + t.f) % M32, (s.g + t.g) % M32, (s.hh + t.hh) % M32⟩

/-- The SHA-256 initial hash value (FIPS 180-4 Section 5.3.3), in decimal. -/
def sha256H0 : Hsh :=
  ⟨1779033703, 3144134277, 1013904242, 2773480762,
   1359893119, 2600822924, 528734635, 1541459225⟩

/-- Consume the padded word stream sixteen words at a time. -/
def sha256Blocks (s : Hsh) : List Nat → Hsh
  | w0 :: w1 :: w2 :: w3 :: w4 :: w5 :: w6 :: w7 ::
    w8 :: w9 :: w10 :: w11 :: w12 :: w13 :: w14 :: w15 :: rest =>
      sha256Blocks
        (sha256Compress s [w0, w1, w2, w3, w4, w5, w6, w7, w8, w9, w10, w11, w12, w13, w14, w15])
        rest
  | _ => s

/-- SHA-256 of a byte list: pad, split into words, compress block by block. -/
def sha256 (m : List Nat) : Hsh := sha256Blocks sha256H0 (wordsOfBytes (padMessage m))

/-- Lowercase hexadecimal character for a nibble (0-9 then a-f). -/
def hexChar (d : Nat) : Char := if d < 10 then Char.ofNat (48 + d) else Char.ofNat (87 + d)

/-- The eight lowercase hex characters of one 32-bit word, most significant first. -/
def hexWord (w : Nat) : List Char :=
  [hexChar ((w >>> 28) &&& 15), hexChar ((w >>> 24) &&& 15), hexChar ((w >>> 20) &&& 15),
   hexChar ((w >>> 16) &&& 15), hexChar ((w >>> 12) &&& 15), hexChar ((w >>> 8) &&& 15),
   hexChar ((w >>> 4) &&& 15), hexChar (w &&& 15)]

/-- Lowercase hex rendering of the final state, the embedding of `.hexdigest()`. -/
def hexdigest (s : Hsh) : String :=
  String.mk (hexWord s.a ++ hexWord s.b ++ hexWord s.c ++ hexWord s.d ++
             hexWord s.e ++ hexWord s.f ++ hexWord s.g ++ hexWord s.hh)

/-- SHA-256 hexdigest of a byte list, the reference digest. -/
def sha256hex (m : List Nat) : String := hexdigest (sha256 m)

/-- Embeds `calculate_sha256` (main.py lines 146-158): the file is read whole
(`file_reader.read()`) and hashed in one call, so the embedding takes the file's
full byte content and returns `hashlib.sha256(content).hexdigest()`. -/
def calculate_sha256 (content : List Nat) : String := sha256hex content

/-- The sixteen lowercase hexadecimal characters. -/
def hexLowerChars : List Char := "0123456789abcdef".data

/-! ### Supporting lemmas for the digest format -/

theorem hexChar_mem_of_lt : ∀ d : Nat, d < 16 → hexChar d ∈ hexLowerChars := by
  decide

theorem and15_lt (x : Nat) : x &&& 15 < 16 :=
  Nat.lt_succ_of_le (Nat.and_le_right)

theorem hexWord_mem (w : Nat) (c : Char) (hc : c ∈ hexWord w) : c ∈ hexLowerChars := by
  simp only [hexWord, List.mem_cons, List.not_mem_nil, or_false] at hc
  rcases hc with h | h | h | h | h | h | h | h <;>
    (subst h; exact hexChar_mem_of_lt _ (and15_lt _))

theorem hexdigest_length (s : Hsh) : (hexdigest s).length = 64 := by
  simp [hexdigest, String.length, hexWord]

theorem hexdigest_mem (s : Hsh) (c : Char) (hc : c ∈ (hexdigest s).data) :
    c ∈ hexLowerChars := by
  simp only [hexdigest, String.data, List.mem_append] at hc
  rcases hc with ((((((h | h) | h) | h) | h) | h) | h) | h <;> exact hexWord_mem _ _ h

/-! ## Reference rewriting and path splitting

`re.sub(PATTERN_TO_FIND, PATTERN_TO_SUB, x)` (main.py lines 119-123) substitutes
every non-overlapping occurrence of the literal pattern `/src/branch` (it contains
no regex metacharacter) by `/raw/branch`, scanning left to right. The embedding
specialises the substitution at this fixed pattern so that it is structurally
recursive on the character list. -/

/-- Left-to-right substitution of the literal `/src/branch` by `/raw/branch`. -/
def subSrcBranch : List Char → List Char
  | '/' :: 's' :: 'r' :: 'c' :: '/' :: 'b' :: 'r' :: 'a' :: 'n' :: 'c' :: 'h' :: rest =>
      '/' :: 'r' :: 'a' :: 'w' :: '/' :: 'b' :: 'r' :: 'a' :: 'n' :: 'c' :: 'h' ::
        subSrcBranch rest
  | c :: rest => c :: subSrcBranch rest
  | [] => []

/-- Embeds `re.sub(PATTERN_TO_FIND, PATTERN_TO_SUB, href)` on strings. -/
def rewriteRef (s : String) : String := String.mk (subSrcBranch s.data)

/-- Embeds Python `str.split('/')`: split a character list at every slash,
keeping empty groups. -/
def splitSlash : List Char → List (List Char)
  | [] => [[]]
  | '/' :: rest => [] :: splitSlash rest
  | c :: rest =>
      match splitSlash rest with
      | [] => [[c]]
      | g :: gs => (c :: g) :: gs

/-- Embeds `url.split('/')[-1]` (main.py lines 70 and 134): the last
slash-separated segment of a string. -/
def lastSeg (s : String) : String := String.mk ((splitSlash s.data).getLastD [])

/-- Embeds `os.path.join(root, name)` for a relative `name`. -/
def pathJoin (root name : String) : String := root ++ "/" ++ name

/-! ## The local filesystem tree and the manifest pass

`calculate_sha256_for_directory` (main.py lines 161-184) walks the directory
with `os.walk` (top-down) and writes one CSV row per regular file. The local
tree is embedded as a finite tree of named files (with byte content) and named
subdirectories; `FSDirs` is the mutual list so that all recursions stay
structural. -/

mutual
inductive FSTree where
  | node (files : List (String × List Nat)) (dirs : FSDirs) : FSTree
inductive FSDirs where
  | nil : FSDirs
  | cons (name : String) (sub : FSTree) (rest : FSDirs) : FSDirs
end

mutual
/-- Embeds `os.walk(directory)` top-down: one `(root, files)` pair per visited
directory, the containing directory first, then each subdirectory in order. -/
def osWalk (path : String) : FSTree → List (String × List (String × List Nat))
  | .node files dirs => (path, files) :: osWalkDirs path dirs
def osWalkDirs (path : String) : FSDirs → List (String × List (String × List Nat))
  | .nil => []
  | .cons name sub rest => osWalk (pathJoin path name) sub ++ osWalkDirs path rest
end

/-- The manifest body rows (main.py lines 178-184): for every `(root, files)`
pair of the walk and every file in it, the row
`(os.path.join(root, file_name), calculate_sha256 file_path)`. -/
def manifestRows (directory : String) (t : FSTree) : List (String × String) :=
  (osWalk directory t).flatMap
    (fun pr => pr.2.map (fun fc => (pathJoin pr.1 fc.1, calculate_sha256 fc.2)))

/-- The manifest table: the `DictWriter` header row (main.py line 177) followed
by the body rows. -/
def manifestTable (directory : String) (t : FSTree) : List (String × String) :=
  ("file_path", "sha256_hash") :: manifestRows directory t

/-- Minimal CSV quoting as the `csv` module performs it: a field containing the
delimiter, the quote character or a line-break character is wrapped in double
quotes with inner quotes doubled. -/
def csvQuote (s : String) : String :=
  if s.data.any (fun c => c = ',' ∨ c = '"' ∨ c = '\r' ∨ c = '\n') then
    "\"" ++ String.mk (s.data.flatMap (fun c => if c = '"' then ['"', '"'] else [c])) ++ "\""
  else s

/-- One rendered CSV line, terminated by the csv module's default CRLF. -/
def csvLine (row : String × String) : String :=
  csvQuote row.1 ++ "," ++ csvQuote row.2 ++ "\r\n"

/-- The manifest file's byte-for-byte content: every table row rendered in
order, the header first. -/
def renderManifest (directory : String) (t : FSTree) : String :=
  String.join ((manifestTable directory t).map csvLine)

/-- Embeds `calculate_sha256_for_directory(directory, path_to_result)`
(main.py lines 161-184) as a transformer of the local file store: the file at
`path_to_result` is opened with mode `w` (created fresh, truncating any prior
content) and receives the rendered manifest; no other file changes. -/
def calculate_sha256_for_directory (directory : String) (t : FSTree)
    (path_to_result : String) (store : String → Option String) :
    String → Option String :=
  fun p => if p = path_to_result then some (renderManifest directory t) else store p

mutual
/-- A path, given as nonempty segment list, names a regular file of the tree. -/
def hasFile : FSTree → List String → Bool
  | _, [] => false
  | .node files _, [name] => files.any (fun fc => fc.1 = name)
  | .node _ dirs, name :: seg2 :: segs => hasFileDirs dirs name (seg2 :: segs)
def hasFileDirs : FSDirs → String → List String → Bool
  | .nil, _, _ => false
  | .cons n sub rest, name, segs =>
      (n = name && hasFile sub segs) || hasFileDirs rest name segs
end

mutual
/-- The number of regular files anywhere in the tree. -/
def countFiles : FSTree → Nat
  | .node files dirs => files.length + countFilesDirs dirs
def countFilesDirs : FSDirs → Nat
  | .nil => 0
  | .cons _ sub rest => countFiles sub + countFilesDirs rest
end

/-! ## The downloader `save_file` (main.py lines 56-84)

The network is a function from the requested address to either a connection
error (`aiohttp.client_exceptions.ClientConnectorError`) or an HTTP response
carrying a status code and a body; the source inspects neither the status nor
anything else of the response beyond its body stream. The local file store maps
paths to byte contents. -/

/-- An HTTP response as `save_file` can observe it. -/
structure HTTPResponse where
  status : Nat
  body : List Nat

/-- Outcome of `session.get`: a connection error or a response. -/
inductive NetResult where
  | connectionError : NetResult
  | response (r : HTTPResponse) : NetResult

/-- The chunked read-write loop of `save_file` (main.py lines 80-84): read up to
1024 bytes at a time and append each non-empty part, stopping at the first empty
part; on a list stream the part is empty exactly when the stream is exhausted. -/
def readChunks (l : List Nat) : List Nat :=
  if l = [] then [] else l.take 1024 ++ readChunks (l.drop 1024)
termination_by l.length
decreasing_by
  have hpos : 0 < l.length := List.length_pos.mpr (by assumption)
  simp only [List.length_drop]
  omega

/-- Embeds `save_file(session, semaphore, base_url, url, path)` as its effect on
the local file store: on `ClientConnectorError` it logs and returns before the
`open`, leaving the store untouched; otherwise it opens `path/filename` for
writing (`filename = url.split('/')[-1]`) and streams the body into it. -/
def save_file (net : String → NetResult) (store : String → Option (List Nat))
    (base_url url path : String) : String → Option (List Nat) :=
  let filename := lastSeg url
  match net (base_url ++ url) with
  | .connectionError => store
  | .response r =>
      fun p => if p = path ++ "/" ++ filename then some (readChunks r.body) else store p

/-! ## Listing-element classification (main.py lines 116-136)

`soup.tbody.find_all(class_=CLASSES)` returns the markup elements carrying one
of the two octicon classes. For each such element the loop body reads
`element.get('class')[1]` and compares it with `CLASSES[1]`; the navigable
reference comes from `element.find_next_sibling().get('href')`. The embedding
keeps exactly what those accesses can observe: the element's class list and,
when a next sibling exists, that sibling's optional `href` attribute. -/

/-- A markup element as the loop observes it: its CSS classes, and its next
sibling (`none` when `find_next_sibling()` returns `None`; otherwise the
sibling's `href` attribute value, which may itself be absent). -/
structure TagElem where
  classes : List String
  nextSibling : Option (Option String)

/-- The Python exceptions the loop body can raise on a malformed element. -/
inductive PyError where
  | indexError : PyError
  | attributeError : PyError
  | typeError : PyError
deriving DecidableEq, Repr

/-- Which branch of the loop body an element is taken through, with the value
it passes on: the File branch passes `re.sub(...)` of the sibling's href to
`save_file`; the Directory branch uses the sibling's href as the new url. -/
inductive EntryBranch where
  | fileBranch (url_to_download : String) : EntryBranch
  | dirBranch (url_to_directory : String) : EntryBranch
deriving DecidableEq, Repr

/-- Embeds the `find_all(class_=CLASSES)` filter: an element matches when any of
its CSS classes is one of the two octicon classes. -/
def matchesFilter (element : TagElem) : Bool :=
  element.classes.any (fun c => CLASSES.contains c)

/-- Embeds one iteration of the loop body of `fetch_data` (main.py lines
117-136) on an element, up to the branch decision: evaluate
`element.get('class')[1]` (IndexError when fewer than two classes), compare it
with `CLASSES[1]`, then fetch `element.find_next_sibling().get('href')`
(AttributeError when there is no next sibling; a missing href gives `None`,
which `re.sub` rejects with TypeError in the File branch and `None.split`
rejects with AttributeError in the Directory branch). -/
def processElement (element : TagElem) : Except PyError EntryBranch :=
  match element.classes[1]? with
  | none => .error .indexError
  | some c =>
      if c = CLASSES.getD 1 "" then
        match element.nextSibling with
        | none => .error .attributeError
        | some none => .error .typeError
        | some (some href) => .ok (.fileBranch (rewriteRef href))
      else
        match element.nextSibling with
        | none => .error .attributeError
        | some none => .error .attributeError
        | some (some href) => .ok (.dirBranch href)

/-! ## The crawl as a sequential event trace (main.py lines 87-143)

`fetch_data` contains no task spawning: every `save_file` call and every
recursive `fetch_data` call is awaited in-line inside the `for` loop, and the
whole body sits inside `async with semaphore`. With a single logical task the
run is a deterministic sequence of events; the semaphore acquire can only be
granted immediately (count positive) or block forever (count zero, nobody left
to release). The interpreter below produces that event sequence together with a
completion flag (`false` when the run blocked on the semaphore).

The remote tree is given in parsed form: a directory's listing is the ordered
entry sequence the markup parse would yield. `net url = false` embeds
`ClientConnectorError` on `session.get(url)`; error paths release the slot and
continue (the `async with` block is exited by the early `return`).

Events carry the task identity: the root crawl is `[]`, the j-th entry of a
listing processed by task `t` is `t ++ [j]`. -/

mutual
inductive REntry where
  | file (href : String) : REntry
  | dir (href : String) (children : REntries) : REntry
inductive REntries where
  | nil : REntries
  | cons (e : REntry) (rest : REntries) : REntries
end

/-- One observable event of a run: semaphore admission and release, and the
span of one network operation (from `session.get` to the point the response is
fully consumed). -/
inductive Ev where
  | acq (tid : List Nat) : Ev
  | rel (tid : List Nat) : Ev
  | netStart (tid : List Nat) (url : String) : Ev
  | netEnd (tid : List Nat) (url : String) : Ev
deriving DecidableEq, Repr

/-- The task identity an event belongs to. -/
def evTid : Ev → List Nat
  | .acq tid => tid
  | .rel tid => tid
  | .netStart tid _ => tid
  | .netEnd tid _ => tid

mutual
/-- Run one listing entry with `avail` semaphore slots free. A file entry is
`save_file` (main.py lines 118-130): acquire, GET the rewritten reference,
stream the body, leave the `async with` block. A directory entry is a recursive
`fetch_data` (lines 107-143): acquire, GET the listing, consume the response
text, then process every discovered entry in order while still holding the
slot, and release on leaving the block. `avail = 0` blocks forever. -/
def runEntry (net : String → Bool) (base_url : String) (avail : Nat)
    (tid : List Nat) : REntry → List Ev × Bool
  | .file href =>
      match avail with
      | 0 => ([], false)
      | _ + 1 =>
          let url := base_url ++ rewriteRef href
          if net url then
            ([.acq tid, .netStart tid url, .netEnd tid url, .rel tid], true)
          else
            ([.acq tid, .rel tid], true)
  | .dir href children =>
      match avail with
      | 0 => ([], false)
      | a + 1 =>
          let url := base_url ++ href
          if net url then
            let r := runEntries net base_url a tid 0 children
            ([.acq tid, .netStart tid url, .netEnd tid url] ++ r.1 ++
               (if r.2 then [.rel tid] else []), r.2)
          else
            ([.acq tid, .rel tid], true)
/-- Run the entries of one listing in order (the `for` loop, main.py lines
117-143), numbering them from `i`; each entry is fully awaited before the next
one starts, and a blocked entry stops the run. -/
def runEntries (net : String → Bool) (base_url : String) (avail : Nat)
    (tid : List Nat) (i : Nat) : REntries → List Ev × Bool
  | .nil => ([], true)
  | .cons e rest =>
      let r1 := runEntry net base_url avail (tid ++ [i]) e
      if r1.2 then
        let r2 := runEntries net base_url avail tid (i + 1) rest
        (r1.1 ++ r2.1, r2.2)
      else
        (r1.1, false)
end

/-- The whole crawl as `main` starts it (main.py lines 204-211): a fresh
semaphore with `SEMAPHORE_LIMIT` slots and one root `fetch_data` call on the
project url, whose listing is `listing`. -/
def crawlTrace (net : String → Bool) (base_url project_url : String)
    (listing : REntries) : List Ev × Bool :=
  runEntry net base_url SEMAPHORE_LIMIT [] (.dir project_url listing)

/-- Net contribution of one event to the semaphore's held-slot count. -/
def semDelta : Ev → Int
  | .acq _ => 1
  | .rel _ => -1
  | _ => 0

/-- Net contribution of one event to the count of active network operations. -/
def netDelta : Ev → Int
  | .netStart _ _ => 1
  | .netEnd _ _ => -1
  | _ => 0

/-- Semaphore slots held after a sequence of events. -/
def semSum (evs : List Ev) : Int := (evs.map semDelta).sum

/-- Network operations active after a sequence of events. -/
def netSum (evs : List Ev) : Int := (evs.map netDelta).sum

/-- Zero-based lookup in an entry sequence. -/
def entriesGet : REntries → Nat → Option REntry
  | .nil, _ => none
  | .cons e _, 0 => some e
  | .cons _ rest, n + 1 => entriesGet rest n

/-- Follow a task-identity path from an entry down through directory listings. -/
def lookupE : REntry → List Nat → Option REntry
  | e, [] => some e
  | .dir _ cs, j :: rest =>
      match entriesGet cs j with
      | none => none
      | some e => lookupE e rest
  | .file _, _ :: _ => none

/-- The address `session.get` receives for an entry: a file entry is fetched at
the rewritten reference (main.py lines 119-128), a directory listing at its
plain reference (line 109). -/
def urlOfEntry (base_url : String) : REntry → String
  | .file href => base_url ++ rewriteRef href
  | .dir href _ => base_url ++ href

/-! ## Theorems -/

theorem readChunks_eq (l : List Nat) : readChunks l = l := by
  induction l using readChunks.induct with
  | case1 => simp [readChunks]
  | case2 l hl ih =>
      rw [readChunks]
      simp only [hl, if_false, ih]
      exact List.take_append_drop 1024 l

/-- C4: for every file, the manifest hash computed by `calculate_sha256` equals
the SHA-256 digest of the file's full byte content as computed by a reference
SHA-256 implementation, rendered as a 64-character lowercase hexadecimal
string. The reference behaviour of the embedded implementation is pinned by the
FIPS 180-4 test vectors for `"abc"` and the empty message. -/
theorem C4_manifest_hash_is_reference_sha256 :
    (∀ content : List Nat,
        calculate_sha256 content = sha256hex content ∧
        (calculate_sha256 content).length = 64 ∧
        ∀ c ∈ (calculate_sha256 content).data, c ∈ hexLowerChars) ∧
    calculate_sha256 [97, 98, 99] =
      "ba7816bf8f01cfea414140de5dae2223b00361a396177a9cb410ff61f20015ad" ∧
    calculate_sha256 [] =
      "e3b0c44298fc1c149afbf4c8996fb92427ae41e4649b934ca495991b7852b855" := by
  refine ⟨fun content => ⟨rfl, hexdigest_length _, fun c hc => hexdigest_mem _ c hc⟩, ?_, ?_⟩
  · set_option maxRecDepth 100000 in decide
  · set_option maxRecDepth 100000 in decide

/-- Witness for C4 at the one-byte content `"a"`: its digest has length 64, and
its first character `'c'` is a lowercase hex character. -/
theorem C4_manifest_hash_is_reference_sha256_witness :
    calculate_sha256 [97] = sha256hex [97] ∧ (calculate_sha256 [97]).length = 64 ∧
    'c' ∈ hexLowerChars := by
  have h := C4_manifest_hash_is_reference_sha256.1 [97]
  exact ⟨h.1, h.2.1, h.2.2 'c' (by set_option maxRecDepth 100000 in decide)⟩

/-- C3: when `session.get` raises `ClientConnectorError`, `save_file` returns
before the `open`, so the local store is untouched (no partial or empty file);
when the GET yields a response, exactly the destination file
`path/filename` is created, holding the streamed body, and no other path
changes. -/
theorem C3_save_file_no_side_effect_on_connection_error :
    ∀ (net : String → NetResult) (store : String → Option (List Nat))
      (base_url url path : String),
      (net (base_url ++ url) = .connectionError →
          save_file net store base_url url path = store) ∧
      (∀ r, net (base_url ++ url) = .response r →
          (save_file net store base_url url path) (path ++ "/" ++ lastSeg url) =
            some r.body ∧
          ∀ p, p ≠ path ++ "/" ++ lastSeg url →
            (save_file net store base_url url path) p = store p) := by
  intro net store base_url url path
  constructor
  · intro h
    simp [save_file, h]
  · intro r h
    refine ⟨?_, fun p hp => ?_⟩
    · simp [save_file, h, readChunks_eq]
    · simp [save_file, h, hp]

/-- Witness for C3: a failing network leaves an empty store empty; a succeeding
network creates exactly the file `d/f.txt` with the response body. -/
theorem C3_save_file_no_side_effect_on_connection_error_witness :
    save_file (fun _ => NetResult.connectionError) (fun _ => none) "b" "/a/f.txt" "d" =
      (fun _ => none) ∧
    save_file (fun _ => NetResult.response ⟨200, [1, 2]⟩) (fun _ => none) "b" "/a/f.txt" "d"
      ("d" ++ "/" ++ lastSeg "/a/f.txt") = some [1, 2] ∧
    save_file (fun _ => NetResult.response ⟨200, [1, 2]⟩) (fun _ => none) "b" "/a/f.txt" "d"
      "other" = none := by
  refine ⟨(C3_save_file_no_side_effect_on_connection_error
            (fun _ => NetResult.connectionError) (fun _ => none) "b" "/a/f.txt" "d").1 rfl,
          ((C3_save_file_no_side_effect_on_connection_error
            (fun _ => NetResult.response ⟨200, [1, 2]⟩) (fun _ => none) "b" "/a/f.txt" "d").2
            ⟨200, [1, 2]⟩ rfl).1,
          ((C3_save_file_no_side_effect_on_connection_error
            (fun _ => NetResult.response ⟨200, [1, 2]⟩) (fun _ => none) "b" "/a/f.txt" "d").2
            ⟨200, [1, 2]⟩ rfl).2 "other" (by decide)⟩

/-- C9: `save_file` creates and writes the destination file whenever the GET
completes without a connection error, whatever the HTTP status code: only
`ClientConnectorError` is caught and no status check is performed, so an
error-status response (such as 404) still produces a local file containing the
response body. -/
theorem C9_save_file_writes_regardless_of_status :
    ∀ (net : String → NetResult) (store : String → Option (List Nat))
      (base_url url path : String) (status : Nat) (body : List Nat),
      net (base_url ++ url) = .response ⟨status, body⟩ →
      (save_file net store base_url url path) (path ++ "/" ++ lastSeg url) = some body := by
  intro net store base_url url path status body h
  simp [save_file, h, readChunks_eq]

/-- Witness for C9: a network answering 404 with body bytes `[60, 104]` still
yields a local file at the destination containing exactly those bytes. -/
theorem C9_save_file_writes_regardless_of_status_witness :
    save_file (fun _ => NetResult.response ⟨404, [60, 104]⟩) (fun _ => none) "b" "/a/e.txt" "d"
      ("d" ++ "/" ++ lastSeg "/a/e.txt") = some [60, 104] :=
  C9_save_file_writes_regardless_of_status (fun _ => NetResult.response ⟨404, [60, 104]⟩)
    (fun _ => none) "b" "/a/e.txt" "d" 404 [60, 104] rfl

/-- C8: rebuilding the manifest is idempotent and truncating: running
`calculate_sha256_for_directory` twice against an unchanged directory leaves
the same store as running it once, the manifest file always holds exactly the
freshly rendered manifest whatever it held before, and two runs started from
different prior stores produce byte-identical manifest content. -/
theorem C8_manifest_rebuild_idempotent :
    ∀ (t : FSTree) (directory path_to_result : String)
      (store store2 : String → Option String),
      calculate_sha256_for_directory directory t path_to_result
          (calculate_sha256_for_directory directory t path_to_result store) =
        calculate_sha256_for_directory directory t path_to_result store ∧
      (calculate_sha256_for_directory directory t path_to_result store) path_to_result =
        some (renderManifest directory t) ∧
      (calculate_sha256_for_directory directory t path_to_result store) path_to_result =
        (calculate_sha256_for_directory directory t path_to_result store2) path_to_result := by
  intro t directory path_to_result store store2
  refine ⟨funext fun p => ?_, ?_, ?_⟩
  · by_cases h : p = path_to_result <;> simp [calculate_sha256_for_directory, h]
  · simp [calculate_sha256_for_directory]
  · simp [calculate_sha256_for_directory]

/-- C10: an element of the listing matched by the `CLASSES` filter is taken
through the File branch exactly when its second CSS class equals
`octicon-file`; every other well-formed element goes through the Directory
branch, so no entry is ever skipped as an unknown kind; an element with fewer
than two CSS classes raises IndexError, and one without a next sibling raises
AttributeError — both uncaught. -/
theorem C10_element_classification :
    ∀ e : TagElem, matchesFilter e = true →
      (∀ c h, e.classes[1]? = some c → e.nextSibling = some (some h) →
          processElement e =
            (if c = "octicon-file"
             then .ok (.fileBranch (rewriteRef h))
             else .ok (.dirBranch h))) ∧
      (e.classes.length < 2 → processElement e = .error .indexError) ∧
      (e.nextSibling = none → ∀ c, e.classes[1]? = some c →
          processElement e = .error .attributeError) := by
  intro e _
  refine ⟨fun c h hc hs => ?_, fun hlen => ?_, fun hs c hc => ?_⟩
  · simp only [processElement, hc, hs]
    by_cases hcf : c = "octicon-file" <;> simp [hcf, CLASSES]
  · have : e.classes[1]? = none := by
      rw [List.getElem?_eq_none_iff]
      omega
    simp [processElement, this]
  · simp only [processElement, hc, hs]
    by_cases hcf : c = "octicon-file" <;> simp [hcf, CLASSES]

/-- Witness for C10: a matched element with classes
`[octicon-file-directory-fill, octicon-file]` and a sibling href is classified
as a File with the rewritten reference; a matched element whose second class is
`octicon-file-directory-fill` goes through the Directory branch; a matched
element with a single class raises IndexError. -/
theorem C10_element_classification_witness :
    processElement ⟨["octicon-file-directory-fill", "octicon-file"],
        some (some "/x/src/branch/y")⟩ =
      .ok (.fileBranch (rewriteRef "/x/src/branch/y")) ∧
    processElement ⟨["octicon-sth", "octicon-file-directory-fill"], some (some "/x")⟩ =
      .ok (.dirBranch "/x") ∧
    processElement ⟨["octicon-file"], some (some "/x")⟩ = .error .indexError := by
  refine ⟨?_, ?_, ?_⟩
  · have h := (C10_element_classification
      ⟨["octicon-file-directory-fill", "octicon-file"], some (some "/x/src/branch/y")⟩
      (by decide)).1 "octicon-file" "/x/src/branch/y" rfl rfl
    simpa using h
  · have h := (C10_element_classification
      ⟨["octicon-sth", "octicon-file-directory-fill"], some (some "/x")⟩
      (by decide)).1 "octicon-file-directory-fill" "/x" rfl rfl
    simpa using h
  · exact (C10_element_classification ⟨["octicon-file"], some (some "/x")⟩
      (by decide)).2.1 (by decide)

/-- The claim of C1 as a trace property: the root directory's semaphore slot is
released while only root-task events have happened, i.e. `rel []` lies in the
longest trace segment that precedes any child-task event. -/
def slotReleasedBeforeChildWork (tr : List Ev) : Prop :=
  Ev.rel [] ∈ tr.takeWhile (fun ev => evTid ev == ([] : List Nat))

instance (tr : List Ev) : Decidable (slotReleasedBeforeChildWork tr) := by
  unfold slotReleasedBeforeChildWork
  infer_instance

/-- Position of the first occurrence of an event in a trace (trace length when
absent). -/
def idxOf (ev : Ev) : List Ev → Nat
  | [] => 0
  | x :: rest => if x = ev then 0 else idxOf ev rest + 1

/-- The claim of C2 as a trace property at a two-entry listing: the second
entry is admitted through the gate before the first entry's slot is released,
i.e. the two entries' spans overlap. -/
def entriesLaunchedConcurrently (tr : List Ev) : Prop :=
  idxOf (.acq [1]) tr < idxOf (.rel [0]) tr

instance (tr : List Ev) : Decidable (entriesLaunchedConcurrently tr) := by
  unfold entriesLaunchedConcurrently
  infer_instance

/-- Counterexample to C1: crawling a directory whose listing holds one file, the
root slot's release is the very last event — after the child download acquired
its own slot, ran and released — not before the child work as claimed. -/
theorem C1_counterexample_slot_released_last :
    (crawlTrace (fun _ => true) "b" "/p" (.cons (.file "/f") .nil)).1 =
      [Ev.acq [], Ev.netStart [] "b/p", Ev.netEnd [] "b/p", Ev.acq [0],
       Ev.netStart [0] "b/f", Ev.netEnd [0] "b/f", Ev.rel [0], Ev.rel []] ∧
    ¬ slotReleasedBeforeChildWork
        (crawlTrace (fun _ => true) "b" "/p" (.cons (.file "/f") .nil)).1 := by
  constructor
  · decide
  · decide

/-- C1 amended: the semaphore slot acquired for a directory's listing fetch is
held for the whole `async with` body: it is released only after every entry of
the listing (child downloads and subdirectory recursions, which acquire their
own slots while the parent's is still held) has completed, and never released
at all if the body blocks. -/
theorem C1_amended_slot_held_through_children :
    ∀ (net : String → Bool) (base_url : String) (a : Nat) (tid : List Nat)
      (href : String) (children : REntries),
      net (base_url ++ href) = true →
      (runEntry net base_url (a + 1) tid (.dir href children)).1 =
        [Ev.acq tid, Ev.netStart tid (base_url ++ href), Ev.netEnd tid (base_url ++ href)] ++
          (runEntries net base_url a tid 0 children).1 ++
          (if (runEntries net base_url a tid 0 children).2 then [Ev.rel tid] else []) := by
  intro net base_url a tid href children h
  simp [runEntry, h]

/-- Witness for C1 amended at the one-file listing: the concrete trace shape. -/
theorem C1_amended_slot_held_through_children_witness :
    (runEntry (fun _ => true) "b" 3 [] (.dir "/p" (.cons (.file "/f") .nil))).1 =
      [Ev.acq [], Ev.netStart [] "b/p", Ev.netEnd [] "b/p"] ++
        (runEntries (fun _ => true) "b" 2 [] 0 (.cons (.file "/f") .nil)).1 ++
        (if (runEntries (fun _ => true) "b" 2 [] 0 (.cons (.file "/f") .nil)).2
         then [Ev.rel []] else []) :=
  C1_amended_slot_held_through_children (fun _ => true) "b" 2 []
    "/p" (.cons (.file "/f") .nil) rfl

/-- Counterexample to C2: crawling a directory whose listing holds two files,
every event of the first entry (admission, download, release) precedes every
event of the second: the second entry is only admitted after the first's slot
is released, so the two are sequentially awaited, not launched concurrently. -/
theorem C2_counterexample_sequential_trace :
    (crawlTrace (fun _ => true) "b" "/p"
        (.cons (.file "/f1") (.cons (.file "/f2") .nil))).1 =
      [Ev.acq [], Ev.netStart [] "b/p", Ev.netEnd [] "b/p",
       Ev.acq [0], Ev.netStart [0] "b/f1", Ev.netEnd [0] "b/f1", Ev.rel [0],
       Ev.acq [1], Ev.netStart [1] "b/f2", Ev.netEnd [1] "b/f2", Ev.rel [1],
       Ev.rel []] ∧
    ¬ entriesLaunchedConcurrently
        (crawlTrace (fun _ => true) "b" "/p"
          (.cons (.file "/f1") (.cons (.file "/f2") .nil))).1 := by
  constructor
  · decide
  · decide

/-! ### Trace machinery: sizes, sums and the semaphore invariant -/

mutual
/-- Structural size of an entry, for strong induction. -/
def entrySize : REntry → Nat
  | .file _ => 1
  | .dir _ cs => 1 + entriesSize cs
/-- Structural size of an entry sequence. -/
def entriesSize : REntries → Nat
  | .nil => 0
  | .cons e rest => 1 + entrySize e + entriesSize rest
end

/-- Number of entries in a listing. -/
def elength : REntries → Nat
  | .nil => 0
  | .cons _ rest => 1 + elength rest

theorem semSum_nil : semSum [] = 0 := rfl

theorem netSum_nil : netSum [] = 0 := rfl

theorem semSum_cons (ev : Ev) (l : List Ev) : semSum (ev :: l) = semDelta ev + semSum l := by
  simp [semSum]

theorem netSum_cons (ev : Ev) (l : List Ev) : netSum (ev :: l) = netDelta ev + netSum l := by
  simp [netSum]

theorem semSum_append (xs ys : List Ev) : semSum (xs ++ ys) = semSum xs + semSum ys := by
  simp [semSum]

theorem netSum_append (xs ys : List Ev) : netSum (xs ++ ys) = netSum xs + netSum ys := by
  simp [netSum]

/-- A trace is admissible from held-slot count `s` and active-operation count
`n` under capacity `cap`: after every event the active count stays nonnegative,
never exceeds the held count, and the held count never exceeds the capacity. -/
def okTrace (cap : Int) : Int → Int → List Ev → Prop
  | _, _, [] => True
  | s, n, ev :: rest =>
      0 ≤ n + netDelta ev ∧ n + netDelta ev ≤ s + semDelta ev ∧ s + semDelta ev ≤ cap ∧
      okTrace cap (s + semDelta ev) (n + netDelta ev) rest

theorem okTrace_append (cap : Int) :
    ∀ (xs ys : List Ev) (s n : Int),
      okTrace cap s n (xs ++ ys) ↔
        (okTrace cap s n xs ∧ okTrace cap (s + semSum xs) (n + netSum xs) ys) := by
  intro xs
  induction xs with
  | nil => intro ys s n; simp [okTrace, semSum_nil, netSum_nil]
  | cons ev rest ih =>
      intro ys s n
      have h1 : okTrace cap s n ((ev :: rest) ++ ys) ↔
          (0 ≤ n + netDelta ev ∧ n + netDelta ev ≤ s + semDelta ev ∧
           s + semDelta ev ≤ cap ∧
           okTrace cap (s + semDelta ev) (n + netDelta ev) (rest ++ ys)) := Iff.rfl
      have h2 : okTrace cap s n (ev :: rest) ↔
          (0 ≤ n + netDelta ev ∧ n + netDelta ev ≤ s + semDelta ev ∧
           s + semDelta ev ≤ cap ∧
           okTrace cap (s + semDelta ev) (n + netDelta ev) rest) := Iff.rfl
      have e1 : s + semSum (ev :: rest) = (s + semDelta ev) + semSum rest := by
        rw [semSum_cons]; ring
      have e2 : n + netSum (ev :: rest) = (n + netDelta ev) + netSum rest := by
        rw [netSum_cons]; ring
      rw [h1, h2, ih, e1, e2]
      tauto

theorem okTrace_take (cap : Int) :
    ∀ (tr : List Ev) (s n : Int), okTrace cap s n tr →
      0 ≤ n → n ≤ s → s ≤ cap →
      ∀ m : Nat, 0 ≤ n + netSum (tr.take m) ∧
        n + netSum (tr.take m) ≤ s + semSum (tr.take m) ∧
        s + semSum (tr.take m) ≤ cap := by
  intro tr
  induction tr with
  | nil =>
      intro s n _ h0 h1 h2 m
      simp [semSum_nil, netSum_nil]
      omega
  | cons ev rest ih =>
      intro s n hok h0 h1 h2 m
      rcases hok with ⟨k0, k1, k2, k3⟩
      cases m with
      | zero => simp [semSum_nil, netSum_nil]; omega
      | succ m =>
          have hr := ih (s + semDelta ev) (n + netDelta ev) k3 k0 k1 k2 m
          simp only [List.take_succ_cons, semSum_cons, netSum_cons]
          omega

/-- Core semaphore invariant, by strong induction on entry size: started with
`s ≥ 0` slots held elsewhere, no active operation, and capacity at least
`s + avail`, a run's trace is admissible, and a completed run is balanced
(all acquired slots released, all started operations finished). -/
theorem runOk (net : String → Bool) (base_url : String) : ∀ N : Nat,
    (∀ (e : REntry) (avail : Nat) (tid : List Nat) (s cap : Int),
        entrySize e ≤ N → 0 ≤ s → s + (avail : Int) ≤ cap →
        okTrace cap s 0 (runEntry net base_url avail tid e).1 ∧
        ((runEntry net base_url avail tid e).2 = true →
          semSum (runEntry net base_url avail tid e).1 = 0 ∧
          netSum (runEntry net base_url avail tid e).1 = 0)) ∧
    (∀ (es : REntries) (avail : Nat) (tid : List Nat) (i : Nat) (s cap : Int),
        entriesSize es ≤ N → 0 ≤ s → s + (avail : Int) ≤ cap →
        okTrace cap s 0 (runEntries net base_url avail tid i es).1 ∧
        ((runEntries net base_url avail tid i es).2 = true →
          semSum (runEntries net base_url avail tid i es).1 = 0 ∧
          netSum (runEntries net base_url avail tid i es).1 = 0)) := by
  intro N
  induction N using Nat.strong_induction_on with
  | _ N ih =>
  constructor
  · intro e avail tid s cap hsz hs hcap
    cases e with
    | file href =>
        cases avail with
        | zero =>
            refine ⟨by simp [runEntry, okTrace], fun h => by simp [runEntry] at h⟩
        | succ a =>
            by_cases hnet : net (base_url ++ rewriteRef href) = true
            · refine ⟨?_, fun _ => ?_⟩
              · simp only [runEntry, hnet, if_true]
                simp only [okTrace, semDelta, netDelta]
                push_cast at hcap
                refine ⟨by omega, by omega, by omega, by omega, by omega, by omega,
                        by omega, by omega, by omega, by omega, by omega, by omega, trivial⟩
              · simp [runEntry, hnet, semSum, netSum, semDelta, netDelta]
            · refine ⟨?_, fun _ => ?_⟩
              · simp only [runEntry, hnet, if_false]
                simp only [okTrace, semDelta, netDelta]
                push_cast at hcap
                refine ⟨by omega, by omega, by omega, by omega, by omega, by omega, trivial⟩
              · simp [runEntry, hnet, semSum, netSum, semDelta, netDelta]
    | dir href cs =>
        cases avail with
        | zero =>
            refine ⟨by simp [runEntry, okTrace], fun h => by simp [runEntry] at h⟩
        | succ a =>
            have hcs : entriesSize cs < N := by
              simp only [entrySize] at hsz
              omega
            by_cases hnet : net (base_url ++ href) = true
            · have ihcs := (ih (entriesSize cs) hcs).2 cs a tid 0 (s + 1) cap (le_refl _)
                (by omega) (by push_cast at hcap ⊢; omega)
              refine ⟨?_, fun hdone => ?_⟩
              · have htr : (runEntry net base_url (a + 1) tid (.dir href cs)).1 =
                    [Ev.acq tid, Ev.netStart tid (base_url ++ href),
                     Ev.netEnd tid (base_url ++ href)] ++
                    ((runEntries net base_url a tid 0 cs).1 ++
                     (if (runEntries net base_url a tid 0 cs).2 then [Ev.rel tid] else [])) := by
                  simp [runEntry, hnet]
                rw [htr, okTrace_append]
                constructor
                · simp only [okTrace, semDelta, netDelta]
                  push_cast at hcap
                  refine ⟨by omega, by omega, by omega, by omega, by omega, by omega,
                          by omega, by omega, by omega, trivial⟩
                · have hsem : semSum [Ev.acq tid, Ev.netStart tid (base_url ++ href),
                      Ev.netEnd tid (base_url ++ href)] = 1 := by
                    simp [semSum, semDelta]
                  have hnet0 : netSum [Ev.acq tid, Ev.netStart tid (base_url ++ href),
                      Ev.netEnd tid (base_url ++ href)] = 0 := by
                    simp [netSum, netDelta]
                  rw [hsem, hnet0, okTrace_append]
                  refine ⟨by simpa using ihcs.1, ?_⟩
                  by_cases hdone2 : (runEntries net base_url a tid 0 cs).2 = true
                  · have hb := ihcs.2 hdone2
                    simp only [hdone2, if_true, hb.1, hb.2]
                    simp only [okTrace, semDelta, netDelta]
                    push_cast at hcap
                    refine ⟨by omega, by omega, by omega, trivial⟩
                  · simp [hdone2, okTrace]
              · have hd : (runEntries net base_url a tid 0 cs).2 = true := by
                  simpa [runEntry, hnet] using hdone
                have hb := ihcs.2 hd
                simp [runEntry, hnet, hd, semSum_append, netSum_append, hb.1, hb.2,
                      semSum, netSum, semDelta, netDelta]
                exact ⟨hb.1, hb.2⟩
            · refine ⟨?_, fun _ => ?_⟩
              · simp only [runEntry, hnet, if_false]
                simp only [okTrace, semDelta, netDelta]
                push_cast at hcap
                refine ⟨by omega, by omega, by omega, by omega, by omega, by omega, trivial⟩
              · simp [runEntry, hnet, semSum, netSum, semDelta, netDelta]
  · intro es avail tid i s cap hsz hs hcap
    cases es with
    | nil =>
        refine ⟨by simp [runEntries, okTrace], fun _ => by simp [runEntries, semSum, netSum]⟩
    | cons e rest =>
        have hse : entrySize e < N ∧ entriesSize rest < N := by
          simp only [entriesSize] at hsz
          omega
        have ih1 := (ih (entrySize e) hse.1).1 e avail (tid ++ [i]) s cap (le_refl _) hs hcap
        by_cases h1d : (runEntry net base_url avail (tid ++ [i]) e).2 = true
        · have hb1 := ih1.2 h1d
          have ih2 := (ih (entriesSize rest) hse.2).2 rest avail tid (i + 1) s cap
            (le_refl _) hs hcap
          refine ⟨?_, fun hdone => ?_⟩
          · have htr : (runEntries net base_url avail tid i (.cons e rest)).1 =
                (runEntry net base_url avail (tid ++ [i]) e).1 ++
                (runEntries net base_url avail tid (i + 1) rest).1 := by
              simp [runEntries, h1d]
            rw [htr, okTrace_append, hb1.1, hb1.2]
            refine ⟨ih1.1, by simpa using ih2.1⟩
          · have h2d : (runEntries net base_url avail tid (i + 1) rest).2 = true := by
              simpa [runEntries, h1d] using hdone
            have hb2 := ih2.2 h2d
            simp [runEntries, h1d, semSum_append, netSum_append, hb1.1, hb1.2, hb2.1, hb2.2]
        · refine ⟨?_, fun hdone => ?_⟩
          · have htr : (runEntries net base_url avail tid i (.cons e rest)).1 =
                (runEntry net base_url avail (tid ++ [i]) e).1 := by
              simp [runEntries, h1d]
            rw [htr]
            exact ih1.1
          · simp [runEntries, h1d] at hdone

/-- C6: at every instant of a run, the number of simultaneously active network
operations (listing fetches plus file downloads combined) never exceeds the
fixed concurrency budget `SEMAPHORE_LIMIT = 3`: after any prefix of the crawl's
event trace, at most three network operations are open. -/
theorem C6_network_operations_bounded_by_semaphore_limit :
    ∀ (net : String → Bool) (base_url project_url : String) (listing : REntries) (m : Nat),
      netSum (((crawlTrace net base_url project_url listing).1).take m) ≤
        (SEMAPHORE_LIMIT : Int) ∧
      0 ≤ netSum (((crawlTrace net base_url project_url listing).1).take m) := by
  intro net base_url project_url listing m
  have hok := ((runOk net base_url (entrySize (.dir project_url listing))).1
    (.dir project_url listing) SEMAPHORE_LIMIT [] 0 (SEMAPHORE_LIMIT : Int)
    (le_refl _) (le_refl _) (by simp)).1
  have h := okTrace_take (SEMAPHORE_LIMIT : Int)
    (runEntry net base_url SEMAPHORE_LIMIT [] (.dir project_url listing)).1 0 0 hok
    (le_refl _) (le_refl _) (by simp [SEMAPHORE_LIMIT]) m
  rcases h with ⟨h1, h2, h3⟩
  constructor
  · simp only [crawlTrace]
    omega
  · simp only [crawlTrace]
    omega

/-! ### Task-identity machinery: which listing entry an event belongs to -/

/-- The listing position (relative to the parent task `parent`) an event's task
belongs to: `some j` when the event's task identity extends `parent ++ [j]`,
`none` for the parent's own events. -/
def childIndexOf (parent : List Nat) (ev : Ev) : Option Nat :=
  if parent.isPrefixOf (evTid ev) then ((evTid ev).drop parent.length).head? else none

theorem childIndexOf_eq_some (parent : List Nat) (ev : Ev) (j : Nat)
    (h : (parent ++ [j]) <+: evTid ev) : childIndexOf parent ev = some j := by
  obtain ⟨s, hs⟩ := h
  have h2 : evTid ev = parent ++ (j :: s) := by
    rw [← hs]
    simp
  have hp : parent.isPrefixOf (evTid ev) = true :=
    List.isPrefixOf_iff_prefix.mpr ⟨j :: s, h2.symm⟩
  rw [childIndexOf, if_pos hp, h2, List.drop_left]
  rfl

theorem childIndexOf_self (parent : List Nat) (ev : Ev) (h : evTid ev = parent) :
    childIndexOf parent ev = none := by
  rw [childIndexOf, h]
  split
  · rw [List.drop_length]
    rfl
  · rfl

/-- Every event of a run carries the running task's identity as a prefix; every
event of a listing loop belongs to some entry numbered at least `i`. -/
theorem runTid (net : String → Bool) (base_url : String) : ∀ N : Nat,
    (∀ (e : REntry) (avail : Nat) (tid : List Nat), entrySize e ≤ N →
        ∀ ev ∈ (runEntry net base_url avail tid e).1, tid <+: evTid ev) ∧
    (∀ (es : REntries) (avail : Nat) (tid : List Nat) (i : Nat), entriesSize es ≤ N →
        ∀ ev ∈ (runEntries net base_url avail tid i es).1,
          ∃ j, i ≤ j ∧ (tid ++ [j]) <+: evTid ev) := by
  intro N
  induction N using Nat.strong_induction_on with
  | _ N ih =>
  constructor
  · intro e avail tid hsz ev hev
    cases e with
    | file href =>
        cases avail with
        | zero => simp [runEntry] at hev
        | succ a =>
            by_cases hnet : net (base_url ++ rewriteRef href) = true
            · simp [runEntry, hnet] at hev
              rcases hev with h | h | h | h <;> subst h <;> exact List.prefix_rfl
            · simp [runEntry, hnet] at hev
              rcases hev with h | h <;> subst h <;> exact List.prefix_rfl
    | dir href cs =>
        cases avail with
        | zero => simp [runEntry] at hev
        | succ a =>
            have hcs : entriesSize cs < N := by
              simp only [entrySize] at hsz
              omega
            by_cases hnet : net (base_url ++ href) = true
            · by_cases hd2 : (runEntries net base_url a tid 0 cs).2 = true <;>
                simp [runEntry, hnet, hd2] at hev
              · rcases hev with h | h | h | h | h
                · subst h; exact List.prefix_rfl
                · subst h; exact List.prefix_rfl
                · subst h; exact List.prefix_rfl
                · obtain ⟨j, _, hpre⟩ := (ih (entriesSize cs) hcs).2 cs a tid 0 (le_refl _) ev h
                  exact List.IsPrefix.trans (List.prefix_append tid [j]) hpre
                · subst h; exact List.prefix_rfl
              · rcases hev with h | h | h | h
                · subst h; exact List.prefix_rfl
                · subst h; exact List.prefix_rfl
                · subst h; exact List.prefix_rfl
                · obtain ⟨j, _, hpre⟩ := (ih (entriesSize cs) hcs).2 cs a tid 0 (le_refl _) ev h
                  exact List.IsPrefix.trans (List.prefix_append tid [j]) hpre
            · simp [runEntry, hnet] at hev
              rcases hev with h | h <;> subst h <;> exact List.prefix_rfl
  · intro es avail tid i hsz ev hev
    cases es with
    | nil => simp [runEntries] at hev
    | cons e rest =>
        have hse : entrySize e < N ∧ entriesSize rest < N := by
          simp only [entriesSize] at hsz
          omega
        by_cases h1d : (runEntry net base_url avail (tid ++ [i]) e).2 = true
        · simp [runEntries, h1d] at hev
          rcases hev with h | h
          · have hpre := (ih (entrySize e) hse.1).1 e avail (tid ++ [i]) (le_refl _) ev h
            exact ⟨i, le_refl i, hpre⟩
          · obtain ⟨j, hij, hpre⟩ :=
              (ih (entriesSize rest) hse.2).2 rest avail tid (i + 1) (le_refl _) ev h
            exact ⟨j, by omega, hpre⟩
        · simp [runEntries, h1d] at hev
          have hpre := (ih (entrySize e) hse.1).1 e avail (tid ++ [i]) (le_refl _) ev hev
          exact ⟨i, le_refl i, hpre⟩

/-- Within one listing loop, events of an earlier entry occupy strictly earlier
trace positions than events of a later entry: the loop fully awaits each entry
before starting the next. -/
theorem entriesOrdered (net : String → Bool) (base_url : String) : ∀ N : Nat,
    ∀ (es : REntries), entriesSize es ≤ N →
    ∀ (avail : Nat) (tid : List Nat) (i : Nat) (a b : Nat) (ev1 ev2 : Ev) (j k : Nat),
      ((runEntries net base_url avail tid i es).1)[a]? = some ev1 →
      ((runEntries net base_url avail tid i es).1)[b]? = some ev2 →
      childIndexOf tid ev1 = some j → childIndexOf tid ev2 = some k →
      j < k → a < b := by
  intro N
  induction N using Nat.strong_induction_on with
  | _ N ih =>
  intro es hsz avail tid i a b ev1 ev2 j k ha hb hj hk hjk
  cases es with
  | nil => simp [runEntries] at ha
  | cons e rest =>
      have hse : entrySize e < N ∧ entriesSize rest < N := by
        simp only [entriesSize] at hsz
        omega
      have hr1idx : ∀ ev ∈ (runEntry net base_url avail (tid ++ [i]) e).1,
          childIndexOf tid ev = some i := by
        intro ev hev
        have hpre := (runTid net base_url (entrySize e)).1 e avail (tid ++ [i]) (le_refl _) ev hev
        exact childIndexOf_eq_some tid ev i hpre
      have hr2idx : ∀ ev ∈ (runEntries net base_url avail tid (i + 1) rest).1,
          ∃ j', i + 1 ≤ j' ∧ childIndexOf tid ev = some j' := by
        intro ev hev
        obtain ⟨j', hij', hpre⟩ :=
          (runTid net base_url (entriesSize rest)).2 rest avail tid (i + 1) (le_refl _) ev hev
        exact ⟨j', hij', childIndexOf_eq_some tid ev j' hpre⟩
      by_cases h1d : (runEntry net base_url avail (tid ++ [i]) e).2 = true
      · have htr : (runEntries net base_url avail tid i (.cons e rest)).1 =
            (runEntry net base_url avail (tid ++ [i]) e).1 ++
            (runEntries net base_url avail tid (i + 1) rest).1 := by
          simp [runEntries, h1d]
        rw [htr] at ha hb
        by_cases haL : a < (runEntry net base_url avail (tid ++ [i]) e).1.length
        · by_cases hbL : b < (runEntry net base_url avail (tid ++ [i]) e).1.length
          · rw [List.getElem?_append, if_pos haL] at ha
            rw [List.getElem?_append, if_pos hbL] at hb
            have h1 := hr1idx ev1 (List.getElem?_mem ha)
            have h2 := hr1idx ev2 (List.getElem?_mem hb)
            rw [hj] at h1
            rw [hk] at h2
            have e1 : j = i := by injection h1
            have e2 : k = i := by injection h2
            omega
          · omega
        · push_neg at haL
          rw [List.getElem?_append_right haL] at ha
          obtain ⟨j', hij', hcj'⟩ := hr2idx ev1 (List.getElem?_mem ha)
          rw [hj] at hcj'
          have e1 : j = j' := by injection hcj'
          by_cases hbL : b < (runEntry net base_url avail (tid ++ [i]) e).1.length
          · rw [List.getElem?_append, if_pos hbL] at hb
            have h2 := hr1idx ev2 (List.getElem?_mem hb)
            rw [hk] at h2
            have e2 : k = i := by injection h2
            omega
          · push_neg at hbL
            rw [List.getElem?_append_right hbL] at hb
            have hlt := ih (entriesSize rest) hse.2 rest (le_refl _) avail tid (i + 1)
              (a - (runEntry net base_url avail (tid ++ [i]) e).1.length)
              (b - (runEntry net base_url avail (tid ++ [i]) e).1.length)
              ev1 ev2 j k ha hb hj hk hjk
            omega
      · have htr : (runEntries net base_url avail tid i (.cons e rest)).1 =
            (runEntry net base_url avail (tid ++ [i]) e).1 := by
          simp [runEntries, h1d]
        rw [htr] at ha hb
        have h1 := hr1idx ev1 (List.getElem?_mem ha)
        have h2 := hr1idx ev2 (List.getElem?_mem hb)
        rw [hj] at h1
        rw [hk] at h2
        have e1 : j = i := by injection h1
        have e2 : k = i := by injection h2
        omega

/-- A completed entry run released its slot: the entry's own release event is
in its trace. -/
theorem runEntry_rel_of_done (net : String → Bool) (base_url : String) (avail : Nat)
    (tid : List Nat) (e : REntry) (h : (runEntry net base_url avail tid e).2 = true) :
    Ev.rel tid ∈ (runEntry net base_url avail tid e).1 := by
  cases e with
  | file href =>
      cases avail with
      | zero => simp [runEntry] at h
      | succ a =>
          by_cases hnet : net (base_url ++ rewriteRef href) = true <;>
            simp [runEntry, hnet]
  | dir href cs =>
      cases avail with
      | zero => simp [runEntry] at h
      | succ a =>
          by_cases hnet : net (base_url ++ href) = true
          · have hd : (runEntries net base_url a tid 0 cs).2 = true := by
              simpa [runEntry, hnet] using h
            simp [runEntry, hnet, hd]
          · simp [runEntry, hnet]

/-- A completed listing loop contains the release event of every one of its
entries: the loop only finishes once each entry's work has finished. -/
theorem runEntries_rel_of_done (net : String → Bool) (base_url : String) : ∀ N : Nat,
    ∀ (es : REntries), entriesSize es ≤ N →
    ∀ (avail : Nat) (tid : List Nat) (i : Nat),
      (runEntries net base_url avail tid i es).2 = true →
      ∀ j, i ≤ j → j < i + elength es →
        Ev.rel (tid ++ [j]) ∈ (runEntries net base_url avail tid i es).1 := by
  intro N
  induction N using Nat.strong_induction_on with
  | _ N ih =>
  intro es hsz avail tid i hdone j hij hj
  cases es with
  | nil =>
      simp only [elength] at hj
      omega
  | cons e rest =>
      have hse : entrySize e < N ∧ entriesSize rest < N := by
        simp only [entriesSize] at hsz
        omega
      by_cases h1d : (runEntry net base_url avail (tid ++ [i]) e).2 = true
      · have h2d : (runEntries net base_url avail tid (i + 1) rest).2 = true := by
          simpa [runEntries, h1d] using hdone
        have htr : (runEntries net base_url avail tid i (.cons e rest)).1 =
            (runEntry net base_url avail (tid ++ [i]) e).1 ++
            (runEntries net base_url avail tid (i + 1) rest).1 := by
          simp [runEntries, h1d]
        rw [htr]
        rcases Nat.eq_or_lt_of_le hij with heq | hlt
        · subst heq
          exact List.mem_append_left _ (runEntry_rel_of_done net base_url avail _ e h1d)
        · refine List.mem_append_right _ ?_
          refine ih (entriesSize rest) hse.2 rest (le_refl _) avail tid (i + 1) h2d j hlt ?_
          simp only [elength] at hj
          omega
      · simp [runEntries, h1d] at hdone

/-- C2 amended: within one directory listing, the entries discovered by
`fetch_data` are processed strictly sequentially in listing order — every event
of an earlier entry (including its transitive sub-work) occurs before every
event of a later entry — and the loop finishes only once every entry spawned at
this level has completed, witnessed by each entry's slot-release event lying in
the trace. -/
theorem C2_amended_entries_processed_sequentially :
    ∀ (net : String → Bool) (base_url : String) (avail : Nat) (tid : List Nat)
      (listing : REntries),
      (∀ (a b : Nat) (ev1 ev2 : Ev) (j k : Nat),
          ((runEntries net base_url avail tid 0 listing).1)[a]? = some ev1 →
          ((runEntries net base_url avail tid 0 listing).1)[b]? = some ev2 →
          childIndexOf tid ev1 = some j → childIndexOf tid ev2 = some k →
          j < k → a < b) ∧
      ((runEntries net base_url avail tid 0 listing).2 = true →
        ∀ j, j < elength listing →
          Ev.rel (tid ++ [j]) ∈ (runEntries net base_url avail tid 0 listing).1) := by
  intro net base_url avail tid listing
  constructor
  · intro a b ev1 ev2 j k ha hb hj hk hjk
    exact entriesOrdered net base_url (entriesSize listing) listing (le_refl _)
      avail tid 0 a b ev1 ev2 j k ha hb hj hk hjk
  · intro hdone j hj
    exact runEntries_rel_of_done net base_url (entriesSize listing) listing (le_refl _)
      avail tid 0 hdone j (Nat.zero_le _) (by omega)

/-- Witness for C2 amended at a two-file listing: the first entry's admission
(position 0) precedes the second entry's admission (position 4), and the
completed loop's trace contains the release of entry 1. -/
theorem C2_amended_entries_processed_sequentially_witness :
    (0 : Nat) < 4 ∧
    Ev.rel [1] ∈ (runEntries (fun _ => true) "b" 2 [] 0
      (.cons (.file "/f1") (.cons (.file "/f2") .nil))).1 :=
  ⟨(C2_amended_entries_processed_sequentially (fun _ => true) "b" 2 []
      (.cons (.file "/f1") (.cons (.file "/f2") .nil))).1
      0 4 (Ev.acq [0]) (Ev.acq [1]) 0 1 (by decide) (by decide) (by decide) (by decide)
      (by decide),
   (C2_amended_entries_processed_sequentially (fun _ => true) "b" 2 []
      (.cons (.file "/f1") (.cons (.file "/f2") .nil))).2 (by decide) 1 (by decide)⟩

/-- The fixed-pattern substitution agrees with the module constants: an
occurrence of `PATTERN_TO_FIND` at the head is replaced by `PATTERN_TO_SUB`
and scanning continues after it. -/
theorem subSrcBranch_head (rest : List Char) :
    subSrcBranch (PATTERN_TO_FIND.data ++ rest) =
      PATTERN_TO_SUB.data ++ subSrcBranch rest := rfl

/-- Every `netStart` event of a run names the address of the entry its task
identity designates: the rewritten reference for a file entry, the plain
reference for a directory listing. -/
theorem runNetUrl (net : String → Bool) (base_url : String) : ∀ N : Nat,
    (∀ (e : REntry) (avail : Nat) (tid : List Nat) (t : List Nat) (u : String),
        entrySize e ≤ N → Ev.netStart t u ∈ (runEntry net base_url avail tid e).1 →
        ∃ rest, t = tid ++ rest ∧
          ∃ e', lookupE e rest = some e' ∧ u = urlOfEntry base_url e') ∧
    (∀ (es : REntries) (avail : Nat) (tid : List Nat) (i : Nat) (t : List Nat) (u : String),
        entriesSize es ≤ N → Ev.netStart t u ∈ (runEntries net base_url avail tid i es).1 →
        ∃ j rest, i ≤ j ∧ t = tid ++ [j] ++ rest ∧
          ∃ e e', entriesGet es (j - i) = some e ∧ lookupE e rest = some e' ∧
            u = urlOfEntry base_url e') := by
  intro N
  induction N using Nat.strong_induction_on with
  | _ N ih =>
  constructor
  · intro e avail tid t u hsz hev
    cases e with
    | file href =>
        cases avail with
        | zero => simp [runEntry] at hev
        | succ a =>
            by_cases hnet : net (base_url ++ rewriteRef href) = true
            · simp [runEntry, hnet] at hev
              exact ⟨[], by simp [hev.1], .file href, rfl, by simp [hev.2, urlOfEntry]⟩
            · simp [runEntry, hnet] at hev
    | dir href cs =>
        cases avail with
        | zero => simp [runEntry] at hev
        | succ a =>
            have hcs : entriesSize cs < N := by
              simp only [entrySize] at hsz
              omega
            by_cases hnet : net (base_url ++ href) = true
            · by_cases hd2 : (runEntries net base_url a tid 0 cs).2 = true <;>
                simp [runEntry, hnet, hd2] at hev
              · rcases hev with h | h
                · exact ⟨[], by simp [h.1], .dir href cs, rfl, by simp [h.2, urlOfEntry]⟩
                · obtain ⟨j, rest, _, ht, e, e', hget, hle, hu⟩ :=
                    (ih (entriesSize cs) hcs).2 cs a tid 0 t u (le_refl _) h
                  refine ⟨j :: rest, by simpa using ht, e', ?_, hu⟩
                  simp only [lookupE]
                  rw [show j - 0 = j from rfl] at hget
                  rw [hget]
                  exact hle
              · rcases hev with h | h
                · exact ⟨[], by simp [h.1], .dir href cs, rfl, by simp [h.2, urlOfEntry]⟩
                · obtain ⟨j, rest, _, ht, e, e', hget, hle, hu⟩ :=
                    (ih (entriesSize cs) hcs).2 cs a tid 0 t u (le_refl _) h
                  refine ⟨j :: rest, by simpa using ht, e', ?_, hu⟩
                  simp only [lookupE]
                  rw [show j - 0 = j from rfl] at hget
                  rw [hget]
                  exact hle
            · simp [runEntry, hnet] at hev
  · intro es avail tid i t u hsz hev
    cases es with
    | nil => simp [runEntries] at hev
    | cons e rest =>
        have hse : entrySize e < N ∧ entriesSize rest < N := by
          simp only [entriesSize] at hsz
          omega
        by_cases h1d : (runEntry net base_url avail (tid ++ [i]) e).2 = true
        · simp [runEntries, h1d] at hev
          rcases hev with h | h
          · obtain ⟨r, ht, e', hle, hu⟩ :=
              (ih (entrySize e) hse.1).1 e avail (tid ++ [i]) t u (le_refl _) h
            exact ⟨i, r, le_refl i, by simp [ht], e, e', by simp [entriesGet], hle, hu⟩
          · obtain ⟨j, r, hij, ht, e2, e', hget, hle, hu⟩ :=
              (ih (entriesSize rest) hse.2).2 rest avail tid (i + 1) t u (le_refl _) h
            refine ⟨j, r, by omega, ht, e2, e', ?_, hle, hu⟩
            have hji : j - i = (j - (i + 1)) + 1 := by omega
            rw [hji]
            simpa [entriesGet] using hget
        · simp [runEntries, h1d] at hev
          obtain ⟨r, ht, e', hle, hu⟩ :=
            (ih (entrySize e) hse.1).1 e avail (tid ++ [i]) t u (le_refl _) hev
          exact ⟨i, r, le_refl i, by simp [ht], e, e', by simp [entriesGet], hle, hu⟩

/-- C7: before downloading a file entry, `fetch_data` rewrites the entry's raw
reference by the fixed substring substitution `/src/branch` to `/raw/branch`
(the `re.sub` with `PATTERN_TO_FIND` and `PATTERN_TO_SUB`), and this rewritten
reference is the one whose address the downloader's GET names: every network
operation of the crawl targets the entry its task designates, a file entry
always at `base_url ++ rewriteRef href`. -/
theorem C7_download_uses_rewritten_reference :
    ∀ (net : String → Bool) (base_url project_url : String) (listing : REntries)
      (t : List Nat) (u : String),
      Ev.netStart t u ∈ (crawlTrace net base_url project_url listing).1 →
      ∃ e', lookupE (.dir project_url listing) t = some e' ∧
        u = urlOfEntry base_url e' ∧
        ∀ href, e' = .file href → u = base_url ++ rewriteRef href := by
  intro net base_url project_url listing t u hmem
  obtain ⟨rest, ht, e', hle, hu⟩ :=
    (runNetUrl net base_url (entrySize (.dir project_url listing))).1
      (.dir project_url listing) SEMAPHORE_LIMIT [] t u (le_refl _) hmem
  have ht' : t = rest := by simpa using ht
  subst ht'
  refine ⟨e', hle, hu, fun href he => ?_⟩
  subst he
  exact hu

/-- Witness for C7: in a listing holding the file reference
`/p/src/branch/m.txt`, the download's GET targets
`B/p/raw/branch/m.txt` — the rewritten reference. -/
theorem C7_download_uses_rewritten_reference_witness :
    ∃ e', lookupE (.dir "/p" (.cons (.file "/p/src/branch/m.txt") .nil)) [0] = some e' ∧
      "B" ++ "/p/raw/branch/m.txt" = urlOfEntry "B" e' ∧
      ∀ href, e' = .file href →
        "B" ++ "/p/raw/branch/m.txt" = "B" ++ rewriteRef href :=
  C7_download_uses_rewritten_reference (fun _ => true) "B" "/p"
    (.cons (.file "/p/src/branch/m.txt") .nil) [0] ("B" ++ "/p/raw/branch/m.txt")
    (by decide)

/-! ### Manifest completeness machinery -/

mutual
/-- Structural size of a filesystem tree, for strong induction. -/
def treeSize : FSTree → Nat
  | .node _ dirs => 1 + dirsSize dirs
/-- Structural size of a subdirectory list. -/
def dirsSize : FSDirs → Nat
  | .nil => 0
  | .cons _ sub rest => 1 + treeSize sub + dirsSize rest
end

/-- The manifest rows contributed by the walk of a subdirectory list. -/
def dirRows (directory : String) (dirs : FSDirs) : List (String × String) :=
  (osWalkDirs directory dirs).flatMap
    (fun pr => pr.2.map (fun fc => (pathJoin pr.1 fc.1, calculate_sha256 fc.2)))

theorem manifestRows_node (root : String) (files : List (String × List Nat)) (dirs : FSDirs) :
    manifestRows root (.node files dirs) =
      files.map (fun fc => (pathJoin root fc.1, calculate_sha256 fc.2)) ++ dirRows root dirs := by
  simp [manifestRows, osWalk, dirRows]

theorem dirRows_nil (root : String) : dirRows root .nil = [] := rfl

theorem dirRows_cons (root name : String) (sub : FSTree) (rest : FSDirs) :
    dirRows root (.cons name sub rest) =
      manifestRows (pathJoin root name) sub ++ dirRows root rest := by
  simp [dirRows, osWalkDirs, manifestRows]

theorem hasFileDirs_nilSegs : ∀ (ds : FSDirs) (name : String), hasFileDirs ds name [] = false
  | .nil, _ => rfl
  | .cons n sub rest, name => by
      simp [hasFileDirs, hasFile, hasFileDirs_nilSegs rest name]

/-- One manifest row per regular file, by strong induction on tree size. -/
theorem rowsCount : ∀ N : Nat,
    (∀ (t : FSTree) (root : String), treeSize t ≤ N →
        (manifestRows root t).length = countFiles t) ∧
    (∀ (ds : FSDirs) (root : String), dirsSize ds ≤ N →
        (dirRows root ds).length = countFilesDirs ds) := by
  intro N
  induction N using Nat.strong_induction_on with
  | _ N ih =>
  constructor
  · intro t root hsz
    cases t with
    | node files dirs =>
        have hd : dirsSize dirs < N := by
          simp only [treeSize] at hsz
          omega
        rw [manifestRows_node]
        simp only [List.length_append, List.length_map, countFiles]
        rw [(ih (dirsSize dirs) hd).2 dirs root (le_refl _)]
  · intro ds root hsz
    cases ds with
    | nil => simp [dirRows_nil, countFilesDirs]
    | cons name sub rest =>
        have hs : treeSize sub < N ∧ dirsSize rest < N := by
          simp only [dirsSize] at hsz
          omega
        rw [dirRows_cons]
        simp only [List.length_append, countFilesDirs]
        rw [(ih (treeSize sub) hs.1).1 sub (pathJoin root name) (le_refl _),
            (ih (dirsSize rest) hs.2).2 rest root (le_refl _)]

/-- The manifest's file-path column enumerates exactly the regular files of the
tree, by strong induction on tree size. -/
theorem rowsMem : ∀ N : Nat,
    (∀ (t : FSTree) (root p : String), treeSize t ≤ N →
        (p ∈ (manifestRows root t).map Prod.fst ↔
          ∃ segs, hasFile t segs = true ∧ p = List.foldl pathJoin root segs)) ∧
    (∀ (ds : FSDirs) (root p : String), dirsSize ds ≤ N →
        (p ∈ (dirRows root ds).map Prod.fst ↔
          ∃ name segs, hasFileDirs ds name segs = true ∧
            p = List.foldl pathJoin root (name :: segs))) := by
  intro N
  induction N using Nat.strong_induction_on with
  | _ N ih =>
  constructor
  · intro t root p hsz
    cases t with
    | node files dirs =>
        have hd : dirsSize dirs < N := by
          simp only [treeSize] at hsz
          omega
        rw [manifestRows_node]
        simp only [List.map_append, List.mem_append, List.map_map]
        constructor
        · rintro (h | h)
          · rw [List.mem_map] at h
            obtain ⟨fc, hfc, hp⟩ := h
            refine ⟨[fc.1], ?_, ?_⟩
            · simp only [hasFile, List.any_eq_true, decide_eq_true_eq]
              exact ⟨fc, hfc, rfl⟩
            · simp [← hp]
          · rw [(ih (dirsSize dirs) hd).2 dirs root p (le_refl _)] at h
            obtain ⟨name, segs, hdirs, hp⟩ := h
            cases segs with
            | nil => rw [hasFileDirs_nilSegs] at hdirs; exact absurd hdirs (by simp)
            | cons s2 rest2 =>
                exact ⟨name :: s2 :: rest2, hdirs, hp⟩
        · rintro ⟨segs, hf, hp⟩
          cases segs with
          | nil => simp [hasFile] at hf
          | cons name rest =>
              cases rest with
              | nil =>
                  left
                  simp only [hasFile, List.any_eq_true, decide_eq_true_eq] at hf
                  obtain ⟨fc, hfc, hname⟩ := hf
                  rw [List.mem_map]
                  refine ⟨fc, hfc, ?_⟩
                  simp [hp, hname]
              | cons s2 rest2 =>
                  right
                  rw [(ih (dirsSize dirs) hd).2 dirs root p (le_refl _)]
                  exact ⟨name, s2 :: rest2, hf, hp⟩
  · intro ds root p hsz
    cases ds with
    | nil =>
        rw [dirRows_nil]
        simp only [List.map_nil, List.not_mem_nil, false_iff]
        rintro ⟨name, segs, hf, _⟩
        simp [hasFileDirs] at hf
    | cons name sub rest =>
        have hs : treeSize sub < N ∧ dirsSize rest < N := by
          simp only [dirsSize] at hsz
          omega
        rw [dirRows_cons]
        simp only [List.map_append, List.mem_append]
        rw [(ih (treeSize sub) hs.1).1 sub (pathJoin root name) p (le_refl _),
            (ih (dirsSize rest) hs.2).2 rest root p (le_refl _)]
        constructor
        · rintro (⟨segs, hf, hp⟩ | ⟨nm, segs, hf, hp⟩)
          · refine ⟨name, segs, ?_, ?_⟩
            · simp only [hasFileDirs, Bool.or_eq_true, Bool.and_eq_true, decide_eq_true_eq]
              exact Or.inl ⟨trivial, hf⟩
            · simpa using hp
          · refine ⟨nm, segs, ?_, hp⟩
            simp only [hasFileDirs, Bool.or_eq_true]
            exact Or.inr hf
        · rintro ⟨nm, segs, hf, hp⟩
          simp only [hasFileDirs, Bool.or_eq_true, Bool.and_eq_true, decide_eq_true_eq] at hf
          rcases hf with ⟨hnm, hsub⟩ | hrest
          · subst hnm
            exact Or.inl ⟨segs, hsub, by simpa using hp⟩
          · exact Or.inr ⟨nm, segs, hrest, hp⟩

/-- C5: for every directory tree, the manifest table starts with the header row
`file_path,sha256_hash`, is followed by exactly one row per regular file under
the root, and the set of `file_path` values in those rows is exactly the set of
regular files present under the root: `p` appears in the column iff some
segment path reaches a regular file of the tree and `p` is the root joined
with those segments. -/
theorem C5_manifest_header_and_completeness :
    ∀ (t : FSTree) (directory : String),
      (manifestTable directory t).head? = some ("file_path", "sha256_hash") ∧
      (manifestTable directory t).tail = manifestRows directory t ∧
      (manifestRows directory t).length = countFiles t ∧
      ∀ p : String,
        p ∈ (manifestRows directory t).map Prod.fst ↔
          ∃ segs, hasFile t segs = true ∧ p = List.foldl pathJoin directory segs := by
  intro t directory
  refine ⟨rfl, rfl, (rowsCount (treeSize t)).1 t directory (le_refl _), fun p => ?_⟩
  exact (rowsMem (treeSize t)).1 t directory p (le_refl _)

/-- Witness for C5 at a tree holding `a.txt` at the root and `b.txt` in a
subdirectory `sub`: the manifest has exactly the two paths. -/
theorem C5_manifest_header_and_completeness_witness :
    ("root/a.txt" ∈ (manifestRows "root"
        (.node [("a.txt", [97])] (.cons "sub" (.node [("b.txt", [98])] .nil) .nil))).map
        Prod.fst) ∧
    ("root/sub/b.txt" ∈ (manifestRows "root"
        (.node [("a.txt", [97])] (.cons "sub" (.node [("b.txt", [98])] .nil) .nil))).map
        Prod.fst) ∧
    (manifestRows "root"
        (.node [("a.txt", [97])] (.cons "sub" (.node [("b.txt", [98])] .nil) .nil))).length =
      countFiles (.node [("a.txt", [97])] (.cons "sub" (.node [("b.txt", [98])] .nil) .nil)) :=
  ⟨((C5_manifest_header_and_completeness
      (.node [("a.txt", [97])] (.cons "sub" (.node [("b.txt", [98])] .nil) .nil)) "root").2.2.2
      "root/a.txt").mpr ⟨["a.txt"], by decide, by decide⟩,
   ((C5_manifest_header_and_completeness
      (.node [("a.txt", [97])] (.cons "sub" (.node [("b.txt", [98])] .nil) .nil)) "root").2.2.2
      "root/sub/b.txt").mpr ⟨["sub", "b.txt"], by decide, by decide⟩,
   (C5_manifest_header_and_completeness
      (.node [("a.txt", [97])] (.cons "sub" (.node [("b.txt", [98])] .nil) .nil)) "root").2.2.1⟩
